import Mathlib

/-!
Verification of the straight-line fitting development (LineFitting.ipynb).

The notebook's own code defines the model function `StrtLineModel` (scalar and
NumPy-vectorized use), the ODR-convention model `StrtLineModelOdr`, and the
confidence-envelope computation `popt_upper = popt + nstd*perr`,
`popt_lower = popt - nstd*perr` with `perr = sqrt(diag(pcov))`.  The estimation
engines themselves (scipy.stats.linregress, scipy.optimize.curve_fit,
scipy.odr) are external library calls, so they are modelled here from the
specification: closed-form (weighted) normal equations for OLS/WLS, an
explicit residual objective for each estimator, a curvature (inverse-Hessian)
covariance for WLS, the orthogonal-distance joint objective for ODR, and a
capped iterative-solver control loop.  Data are rational sequences; the
objectives are stated generically over any field so that the minimization
claims can be settled over the reals while every program-side definition
remains executable on rational inputs.
-/

namespace LineFit

/-- A weighted data point: x-value, y-value and weight `w` (for WLS the
weight is `1/σy²`; for OLS it is `1`). -/
structure WPt where
  x : ℚ
  y : ℚ
  w : ℚ
deriving DecidableEq

/-- Sum of weights. -/
def sumW (l : List WPt) : ℚ := (l.map (fun p => p.w)).sum

/-- Weighted sum of x. -/
def sumWX (l : List WPt) : ℚ := (l.map (fun p => p.w * p.x)).sum

/-- Weighted sum of y. -/
def sumWY (l : List WPt) : ℚ := (l.map (fun p => p.w * p.y)).sum

/-- Weighted sum of x². -/
def sumWXX (l : List WPt) : ℚ := (l.map (fun p => p.w * p.x ^ 2)).sum

/-- Weighted sum of x·y. -/
def sumWXY (l : List WPt) : ℚ := (l.map (fun p => p.w * (p.x * p.y))).sum

/-- Weighted sum of y². -/
def sumWYY (l : List WPt) : ℚ := (l.map (fun p => p.w * p.y ^ 2)).sum

/-- Determinant of the weighted normal-equation system
(`Σw·Σwx² − (Σwx)²`); zero exactly when the system is singular. -/
def detXX (l : List WPt) : ℚ := sumW l * sumWXX l - (sumWX l) ^ 2

/-- The y-analogue of `detXX` (`Σw·Σwy² − (Σwy)²`), the denominator part of
the squared Pearson correlation. -/
def detYY (l : List WPt) : ℚ := sumW l * sumWYY l - (sumWY l) ^ 2

/-- The mixed determinant (`Σw·Σwxy − Σwx·Σwy`), the numerator part of the
slope and of the Pearson correlation. -/
def detXY (l : List WPt) : ℚ := sumW l * sumWXY l - sumWX l * sumWY l

/-- Closed-form (weighted) least-squares slope from the normal equations. -/
def mhat (l : List WPt) : ℚ := (sumW l * sumWXY l - sumWX l * sumWY l) / detXX l

/-- Closed-form (weighted) least-squares intercept from the normal
equations. -/
def chat (l : List WPt) : ℚ := (sumWY l - mhat l * sumWX l) / sumW l

/-- Weighted residual sum of squares `Σ wᵢ (yᵢ − (m xᵢ + c))²`, generic in the
scalar field so it can be read over ℝ (for minimization claims) and evaluated
over ℚ. -/
def Sobj (K : Type) [Field K] (l : List WPt) (m c : K) : K :=
  (l.map (fun p => (p.w : K) * ((p.y : K) - (m * (p.x : K) + c)) ^ 2)).sum

/-- The auxiliary quantity `Σ wᵢ (a − xᵢ)²` used to analyse singularity of the
normal equations. -/
def spread (a : ℚ) (l : List WPt) : ℚ := (l.map (fun p => p.w * (a - p.x) ^ 2)).sum

/-- The unweighted least-squares objective `Σ (yᵢ − (m xᵢ + c))²` over the
paired data, as minimized by the OLS estimator. -/
def Sols (K : Type) [Field K] (xs ys : List ℚ) (m c : K) : K :=
  ((xs.zip ys).map (fun p => ((p.2 : K) - (m * (p.1 : K) + c)) ^ 2)).sum

/-- The weighted least-squares objective `Σ ((yᵢ − (m xᵢ + c))/σᵢ)²` over the
triples of data, exactly as the WLS estimator's χ² is specified. -/
def SobjSigma (K : Type) [Field K] (xs ys ss : List ℚ) (m c : K) : K :=
  ((xs.zip (ys.zip ss)).map
    (fun t => (((t.2.1 : K) - (m * (t.1 : K) + c)) / (t.2.2 : K)) ^ 2)).sum

/-- The distinct failure conditions of the error taxonomy. -/
inductive FitError where
  | degenerateInput
  | invalidUncertainty
  | nonConvergence
  | missingCovariance
deriving DecidableEq

/-- Result of the OLS estimator: slope, intercept, squared Pearson
correlation coefficient (the sign of r is the sign of `detXY`; the square is
stored because r itself is an irrational square root in general), and the
squared standard error of the slope.  There is deliberately no intercept
standard-error field: the OLS estimator does not produce one. -/
structure OLSResult where
  m : ℚ
  c : ℚ
  r2 : ℚ
  stderrM2 : ℚ
deriving DecidableEq

/-- Result of the WLS estimator: fitted parameters and the 2×2 covariance
matrix of (m, c); the derived standard errors are the square roots of
`covMM` and `covCC`. -/
structure WLSResult where
  m : ℚ
  c : ℚ
  covMM : ℚ
  covMC : ℚ
  covCC : ℚ
deriving DecidableEq

/-- Pair the x and y sequences into unit-weight points (the OLS view of a
DataSet). -/
def mkPts1 (xs ys : List ℚ) : List WPt :=
  (xs.zip ys).map (fun p => ⟨p.1, p.2, 1⟩)

/-- Pair the x, y and σy sequences into points weighted by `1/σ²` (the WLS
view of a DataSet). -/
def mkPtsW (xs ys ss : List ℚ) : List WPt :=
  (xs.zip (ys.zip ss)).map (fun p => ⟨p.1, p.2.1, 1 / p.2.2 ^ 2⟩)

/-- Rescale the weight of a point by a constant factor. -/
def scaleW (w0 : ℚ) (p : WPt) : WPt := ⟨p.x, p.y, w0 * p.w⟩

/-- Modelled from the spec: `scipy.stats.linregress` (the OLS estimator; the
library implementation is not part of the repository).  It solves the normal
equations in closed form, reports the squared Pearson correlation and squared
slope standard error, reports no intercept standard error, and fails with the
degenerate-input error when the system is singular (all x identical). -/
def linregress (xs ys : List ℚ) : Except FitError OLSResult :=
  if detXX (mkPts1 xs ys) = 0 then Except.error FitError.degenerateInput
  else
    Except.ok
      { m := mhat (mkPts1 xs ys)
        c := chat (mkPts1 xs ys)
        r2 := detXY (mkPts1 xs ys) ^ 2 / (detXX (mkPts1 xs ys) * detYY (mkPts1 xs ys))
        stderrM2 :=
          (detYY (mkPts1 xs ys) / detXX (mkPts1 xs ys) - mhat (mkPts1 xs ys) ^ 2) /
            (sumW (mkPts1 xs ys) - 2) }

/-- Covariance scale factor of the WLS estimator: `1` when the σ are absolute
uncertainties, the reduced chi-square of the fit when they are relative
weights. -/
def wlsScale (l : List WPt) (absSigma : Bool) : ℚ :=
  if absSigma then 1 else Sobj ℚ l (mhat l) (chat l) / ((l.length : ℚ) - 2)

/-- Modelled from the spec: `scipy.optimize.curve_fit` on the straight-line
model with y-uncertainties (the WLS estimator; the library implementation is
not part of the repository).  A zero (or negative) uncertainty is the
invalid-uncertainty error; a singular weighted system is the degenerate-input
error; otherwise the closed-form weighted normal equations give (m, c) and the
covariance matrix is the inverse of the half-Hessian
`[[Σwx², Σwx], [Σwx, Σw]]` of the χ² objective, rescaled by the reduced
chi-square when the uncertainties are only relative. -/
def curve_fit_wls (xs ys ss : List ℚ) (absSigma : Bool) : Except FitError WLSResult :=
  if ∀ s ∈ ss, 0 < s then
    if detXX (mkPtsW xs ys ss) = 0 then Except.error FitError.degenerateInput
    else
      Except.ok
        { m := mhat (mkPtsW xs ys ss)
          c := chat (mkPtsW xs ys ss)
          covMM := wlsScale (mkPtsW xs ys ss) absSigma *
            (sumW (mkPtsW xs ys ss) / detXX (mkPtsW xs ys ss))
          covMC := wlsScale (mkPtsW xs ys ss) absSigma *
            (-(sumWX (mkPtsW xs ys ss)) / detXX (mkPtsW xs ys ss))
          covCC := wlsScale (mkPtsW xs ys ss) absSigma *
            (sumWXX (mkPtsW xs ys ss) / detXX (mkPtsW xs ys ss)) }
  else Except.error FitError.invalidUncertainty

/-- The straight-line model of the notebook (`def StrtLineModel(x, m, c):
return m*x + c`), scalar calling convention. -/
def StrtLineModel (x m c : ℚ) : ℚ := m * x + c

/-- The straight-line model applied to a sequence of x values: NumPy
broadcasting of `m*x + c` over an array is element-wise evaluation. -/
def StrtLineModelV (xs : List ℚ) (m c : ℚ) : List ℚ := xs.map (fun a => m * a + c)

/-- The ODR-convention model of the notebook (`def StrtLineModelOdr(p, x)`):
parameters first, packed in a pair. -/
def StrtLineModelOdr (p : ℚ × ℚ) (x : ℚ) : ℚ := p.1 * x + p.2

/-- The confidence-envelope computation of the notebook:
`popt_upper = popt + nstd*perr` and `popt_lower = popt - nstd*perr`,
element-wise on the parameter pair. -/
def confidenceEnvelope (popt perr : ℚ × ℚ) (nstd : ℚ) : (ℚ × ℚ) × (ℚ × ℚ) :=
  ((popt.1 + nstd * perr.1, popt.2 + nstd * perr.2),
   (popt.1 - nstd * perr.1, popt.2 - nstd * perr.2))

/-- An ODR data point: x, y and the two uncertainties. -/
structure OPt where
  x : ℚ
  y : ℚ
  sx : ℚ
  sy : ℚ
deriving DecidableEq

/-- Pair the x and y sequences with uniform uncertainties into ODR points. -/
def mkOPts (xs ys : List ℚ) (sx sy : ℚ) : List OPt :=
  (xs.zip ys).map (fun p => ⟨p.1, p.2, sx, sy⟩)

/-- Modelled from the spec: the orthogonal-distance joint objective of the ODR
estimator (the scipy.odr implementation is not part of the repository) —
`Σ ((xᵢ − x̂ᵢ)/σxᵢ)² + ((yᵢ − (m x̂ᵢ + c))/σyᵢ)²` over the data points paired
with the latent true-x values `ts`. -/
def odrObj (K : Type) [Field K] (l : List OPt) (m c : K) (ts : List K) : K :=
  ((l.zip ts).map
    (fun q => (((q.1.x : K) - q.2) / (q.1.sx : K)) ^ 2 +
      (((q.1.y : K) - (m * q.2 + c)) / (q.1.sy : K)) ^ 2)).sum

/-- Modelled from the spec: the control loop of the iterative solvers (WLS
general path, ODR; the library implementations are not part of the
repository).  `step` performs one update and reports `none` on a singular
Jacobian/Hessian; the loop stops when the parameter change is within `tol`,
and reports the non-convergence error when the iteration cap is exhausted or
a singular step is detected. -/
def iterateSolver (step : ℚ × ℚ → Option (ℚ × ℚ)) (tol : ℚ) :
    Nat → ℚ × ℚ → Except FitError (ℚ × ℚ)
  | 0, _ => Except.error FitError.nonConvergence
  | n + 1, p =>
    match step p with
    | none => Except.error FitError.nonConvergence
    | some q =>
      if |q.1 - p.1| + |q.2 - p.2| ≤ tol then Except.ok q
      else iterateSolver step tol n q

/-- All points of a weighted list lie on the line `y = m0 x + c0`. -/
def OnLine (m0 c0 : ℚ) (l : List WPt) : Prop := ∀ p ∈ l, p.y = m0 * p.x + c0

@[simp]
lemma sumW_nil : sumW [] = 0 := rfl

@[simp]
lemma sumW_cons (p : WPt) (l : List WPt) : sumW (p :: l) = p.w + sumW l := by
  simp [sumW]

@[simp]
lemma sumWX_nil : sumWX [] = 0 := rfl

@[simp]
lemma sumWX_cons (p : WPt) (l : List WPt) : sumWX (p :: l) = p.w * p.x + sumWX l := by
  simp [sumWX]

@[simp]
lemma sumWY_nil : sumWY [] = 0 := rfl

@[simp]
lemma sumWY_cons (p : WPt) (l : List WPt) : sumWY (p :: l) = p.w * p.y + sumWY l := by
  simp [sumWY]

@[simp]
lemma sumWXX_nil : sumWXX [] = 0 := rfl

@[simp]
lemma sumWXX_cons (p : WPt) (l : List WPt) :
    sumWXX (p :: l) = p.w * p.x ^ 2 + sumWXX l := by
  simp [sumWXX]

@[simp]
lemma sumWXY_nil : sumWXY [] = 0 := rfl

@[simp]
lemma sumWXY_cons (p : WPt) (l : List WPt) :
    sumWXY (p :: l) = p.w * (p.x * p.y) + sumWXY l := by
  simp [sumWXY]

@[simp]
lemma sumWYY_nil : sumWYY [] = 0 := rfl

@[simp]
lemma sumWYY_cons (p : WPt) (l : List WPt) :
    sumWYY (p :: l) = p.w * p.y ^ 2 + sumWYY l := by
  simp [sumWYY]

@[simp]
lemma Sobj_nil (K : Type) [Field K] (m c : K) : Sobj K [] m c = 0 := rfl

@[simp]
lemma Sobj_cons (K : Type) [Field K] (p : WPt) (l : List WPt) (m c : K) :
    Sobj K (p :: l) m c =
      (p.w : K) * ((p.y : K) - (m * (p.x : K) + c)) ^ 2 + Sobj K l m c := by
  simp [Sobj]

/-- Expansion of the weighted objective into the six moment sums. -/
lemma Sobj_expand (K : Type) [Field K] [CharZero K] (l : List WPt) (m c : K) :
    Sobj K l m c =
      (sumWYY l : K) - 2 * m * (sumWXY l : K) - 2 * c * (sumWY l : K) +
        m ^ 2 * (sumWXX l : K) + 2 * (m * c) * (sumWX l : K) + c ^ 2 * (sumW l : K) := by
  induction l with
  | nil => simp
  | cons p t ih =>
    rw [Sobj_cons, ih, sumWYY_cons, sumWXY_cons, sumWY_cons, sumWXX_cons, sumWX_cons,
      sumW_cons]
    push_cast
    ring

@[simp]
lemma spread_nil (a : ℚ) : spread a [] = 0 := rfl

@[simp]
lemma spread_cons (a : ℚ) (p : WPt) (l : List WPt) :
    spread a (p :: l) = p.w * (a - p.x) ^ 2 + spread a l := by
  simp [spread]

lemma spread_nonneg (a : ℚ) (l : List WPt) (hw : ∀ p ∈ l, 0 ≤ p.w) :
    0 ≤ spread a l := by
  refine List.sum_nonneg ?_
  intro q hq
  obtain ⟨p, hp, rfl⟩ := List.mem_map.mp hq
  exact mul_nonneg (hw p hp) (sq_nonneg _)

lemma spread_pos (a : ℚ) (l : List WPt) (hw : ∀ p ∈ l, 0 < p.w)
    (b : WPt) (hb : b ∈ l) (hab : a ≠ b.x) : 0 < spread a l := by
  have hterm : 0 < b.w * (a - b.x) ^ 2 := by
    have hne : a - b.x ≠ 0 := sub_ne_zero.mpr hab
    have : 0 < (a - b.x) ^ 2 :=
      lt_of_le_of_ne (sq_nonneg _) (Ne.symm (pow_ne_zero 2 hne))
    exact mul_pos (hw b hb) this
  have hmem : b.w * (a - b.x) ^ 2 ∈ l.map (fun p => p.w * (a - p.x) ^ 2) :=
    List.mem_map_of_mem _ hb
  have hle : b.w * (a - b.x) ^ 2 ≤ spread a l := by
    refine List.single_le_sum ?_ _ hmem
    intro q hq
    obtain ⟨p, hp, rfl⟩ := List.mem_map.mp hq
    exact mul_nonneg (le_of_lt (hw p hp)) (sq_nonneg _)
  exact lt_of_lt_of_le hterm hle

lemma spread_expand (a : ℚ) (l : List WPt) :
    spread a l = sumW l * a ^ 2 - 2 * a * sumWX l + sumWXX l := by
  induction l with
  | nil => simp
  | cons p t ih =>
    rw [spread_cons, ih, sumW_cons, sumWX_cons, sumWXX_cons]
    ring

lemma detXX_cons (p : WPt) (l : List WPt) :
    detXX (p :: l) = detXX l + p.w * spread p.x l := by
  rw [detXX, detXX, sumW_cons, sumWX_cons, sumWXX_cons, spread_expand]
  ring

lemma detXX_nonneg (l : List WPt) (hw : ∀ p ∈ l, 0 ≤ p.w) : 0 ≤ detXX l := by
  induction l with
  | nil => simp [detXX]
  | cons p t ih =>
    rw [detXX_cons]
    have h1 : 0 ≤ detXX t := ih (fun q hq => hw q (List.mem_cons_of_mem _ hq))
    have h2 : 0 ≤ p.w * spread p.x t :=
      mul_nonneg (hw p (List.mem_cons_self p t))
        (spread_nonneg _ _ (fun q hq => hw q (List.mem_cons_of_mem _ hq)))
    linarith

/-- A weighted list with positive weights that contains two points with
different x-values has a nonsingular normal-equation system. -/
lemma detXX_pos (l : List WPt) (hw : ∀ p ∈ l, 0 < p.w)
    (a b : WPt) (ha : a ∈ l) (hb : b ∈ l) (hab : a.x ≠ b.x) : 0 < detXX l := by
  induction l with
  | nil => cases ha
  | cons p t ih =>
    have hwt : ∀ q ∈ t, 0 < q.w := fun q hq => hw q (List.mem_cons_of_mem _ hq)
    have hdet_t : 0 ≤ detXX t := detXX_nonneg t (fun q hq => le_of_lt (hwt q hq))
    rw [detXX_cons]
    rcases List.mem_cons.mp ha with hap | hat
    · rcases List.mem_cons.mp hb with hbp | hbt
      · exact absurd (hap ▸ hbp ▸ rfl) hab
      · have hsp : 0 < spread p.x t := by
          refine spread_pos p.x t hwt b hbt ?_
          rw [← hap]; exact hab
        have : 0 < p.w * spread p.x t :=
          mul_pos (hw p (List.mem_cons_self p t)) hsp
        linarith
    · rcases List.mem_cons.mp hb with hbp | hbt
      · have hsp : 0 < spread p.x t := by
          refine spread_pos p.x t hwt a hat ?_
          rw [← hbp]; exact fun h => hab h.symm
        have : 0 < p.w * spread p.x t :=
          mul_pos (hw p (List.mem_cons_self p t)) hsp
        linarith
      · have h1 : 0 < detXX t := ih hwt hat hbt
        have h2 : 0 ≤ p.w * spread p.x t :=
          mul_nonneg (le_of_lt (hw p (List.mem_cons_self p t)))
            (spread_nonneg _ _ (fun q hq => le_of_lt (hwt q hq)))
        linarith

lemma sumW_pos (l : List WPt) (hw : ∀ p ∈ l, 0 < p.w) (hne : l ≠ []) :
    0 < sumW l := by
  refine List.sum_pos _ ?_ ?_
  · intro q hq
    obtain ⟨p, hp, rfl⟩ := List.mem_map.mp hq
    exact hw p hp
  · simpa using hne

/-- Completing the square: the difference between the expanded objective at
any (m, c) and at a point (mh, ch) satisfying the normal equations is a sum
of two squares over the weight total. -/
lemma quad_diff_identity (K : Type) [Field K] (W F G B C m c mh ch : K)
    (hW : W ≠ 0) (hB : B = F * mh + G * ch) (hC : C = G * mh + W * ch) :
    (- (2 * m * B) - 2 * c * C + m ^ 2 * F + 2 * (m * c) * G + c ^ 2 * W) -
      (- (2 * mh * B) - 2 * ch * C + mh ^ 2 * F + 2 * (mh * ch) * G + ch ^ 2 * W) =
      ((W * c + G * m - C) ^ 2 + (W * F - G ^ 2) * (m - mh) ^ 2) / W := by
  subst hB hC
  field_simp
  ring

/-- The closed-form estimates satisfy the weighted normal equations. -/
lemma normal_eqs (l : List WPt) (hD : detXX l ≠ 0) (hW : sumW l ≠ 0) :
    sumWXX l * mhat l + sumWX l * chat l = sumWXY l ∧
      sumWX l * mhat l + sumW l * chat l = sumWY l := by
  rw [detXX] at hD
  constructor
  · simp only [mhat, chat, detXX]
    field_simp
    ring
  · simp only [mhat, chat, detXX]
    field_simp
    ring

/-- The closed-form weighted least-squares estimate minimizes the weighted
objective over all scalar parameter values, for any linearly ordered field. -/
theorem Sobj_le (K : Type) [LinearOrderedField K] (l : List WPt)
    (hW : 0 < sumW l) (hD : 0 < detXX l) (m c : K) :
    Sobj K l (mhat l : K) (chat l : K) ≤ Sobj K l m c := by
  obtain ⟨h1, h2⟩ := normal_eqs l hD.ne' hW.ne'
  have hWK : (0 : K) < (sumW l : K) := by exact_mod_cast hW
  have hB : (sumWXY l : K) =
      (sumWXX l : K) * (mhat l : K) + (sumWX l : K) * (chat l : K) := by
    exact_mod_cast h1.symm
  have hC : (sumWY l : K) =
      (sumWX l : K) * (mhat l : K) + (sumW l : K) * (chat l : K) := by
    exact_mod_cast h2.symm
  have e1 := Sobj_expand K l m c
  have e2 := Sobj_expand K l (mhat l : K) (chat l : K)
  have key := quad_diff_identity K (sumW l : K) (sumWXX l : K) (sumWX l : K)
    (sumWXY l : K) (sumWY l : K) m c (mhat l : K) (chat l : K) hWK.ne' hB hC
  have hDK : (0 : K) ≤ (sumW l : K) * (sumWXX l : K) - (sumWX l : K) ^ 2 := by
    have hq : (0 : ℚ) ≤ sumW l * sumWXX l - sumWX l ^ 2 := by
      have := hD; rw [detXX] at this; exact this.le
    exact_mod_cast hq
  have hnum : (0 : K) ≤
      ((sumW l : K) * c + (sumWX l : K) * m - (sumWY l : K)) ^ 2 +
        ((sumW l : K) * (sumWXX l : K) - (sumWX l : K) ^ 2) * (m - (mhat l : K)) ^ 2 :=
    add_nonneg (sq_nonneg _) (mul_nonneg hDK (sq_nonneg _))
  have hfrac : (0 : K) ≤
      (((sumW l : K) * c + (sumWX l : K) * m - (sumWY l : K)) ^ 2 +
        ((sumW l : K) * (sumWXX l : K) - (sumWX l : K) ^ 2) *
          (m - (mhat l : K)) ^ 2) / (sumW l : K) :=
    div_nonneg hnum hWK.le
  linarith [key, e1, e2, hfrac]

/-- The unweighted OLS objective is the weighted objective on the unit-weight
points. -/
lemma Sols_eq_Sobj (K : Type) [Field K] [CharZero K] (xs ys : List ℚ) (m c : K) :
    Sols K xs ys m c = Sobj K (mkPts1 xs ys) m c := by
  unfold Sols Sobj mkPts1
  induction xs.zip ys with
  | nil => simp
  | cons p t ih =>
    simp only [List.map_cons, List.sum_cons]
    rw [ih]
    push_cast
    ring

/-- The σ-normalized WLS objective is the weighted objective on the
`1/σ²`-weighted points. -/
lemma SobjSigma_eq_Sobj (K : Type) [Field K] [CharZero K] (xs ys ss : List ℚ) (m c : K) :
    SobjSigma K xs ys ss m c = Sobj K (mkPtsW xs ys ss) m c := by
  unfold SobjSigma Sobj mkPtsW
  induction xs.zip (ys.zip ss) with
  | nil => simp
  | cons t z ih =>
    simp only [List.map_cons, List.sum_cons]
    rw [ih]
    push_cast
    ring

lemma mkPts1_map_x (xs ys : List ℚ) (h : xs.length ≤ ys.length) :
    (mkPts1 xs ys).map (fun p => p.x) = xs := by
  unfold mkPts1
  rw [List.map_map]
  exact List.map_fst_zip xs ys h

lemma mkPtsW_map_x (xs ys ss : List ℚ) (h : xs.length ≤ (ys.zip ss).length) :
    (mkPtsW xs ys ss).map (fun p => p.x) = xs := by
  unfold mkPtsW
  rw [List.map_map]
  exact List.map_fst_zip xs (ys.zip ss) h

lemma mkPts1_w (xs ys : List ℚ) : ∀ p ∈ mkPts1 xs ys, p.w = 1 := by
  intro p hp
  obtain ⟨q, _, rfl⟩ := List.mem_map.mp hp
  rfl

lemma mkPts1_w_pos (xs ys : List ℚ) : ∀ p ∈ mkPts1 xs ys, 0 < p.w := by
  intro p hp
  rw [mkPts1_w xs ys p hp]
  norm_num

lemma mkPtsW_w_pos (xs ys ss : List ℚ) (hs : ∀ s ∈ ss, 0 < s) :
    ∀ p ∈ mkPtsW xs ys ss, 0 < p.w := by
  intro p hp
  obtain ⟨q, hq, rfl⟩ := List.mem_map.mp hp
  obtain ⟨qa, qb, qs⟩ := q
  have hmem : (qb, qs) ∈ ys.zip ss := (List.of_mem_zip hq).2
  have hqs : 0 < qs := hs qs (List.of_mem_zip hmem).2
  exact div_pos one_pos (pow_pos hqs 2)

/-- A point list whose x-projection contains two different values has a
positive normal-equation determinant (given positive weights). -/
lemma detXX_pos_of_proj (L : List WPt) (xs : List ℚ)
    (hmap : L.map (fun p => p.x) = xs) (hw : ∀ p ∈ L, 0 < p.w)
    (a b : ℚ) (ha : a ∈ xs) (hb : b ∈ xs) (hab : a ≠ b) : 0 < detXX L := by
  rw [← hmap] at ha hb
  obtain ⟨p, hp, hpa⟩ := List.mem_map.mp ha
  obtain ⟨q, hq, hqb⟩ := List.mem_map.mp hb
  refine detXX_pos L hw p q hp hq ?_
  rw [hpa, hqb]
  exact hab

lemma ne_nil_of_proj (L : List WPt) (xs : List ℚ)
    (hmap : L.map (fun p => p.x) = xs) (a : ℚ) (ha : a ∈ xs) : L ≠ [] := by
  rw [← hmap] at ha
  obtain ⟨p, hp, _⟩ := List.mem_map.mp ha
  exact List.ne_nil_of_mem hp

/-- Moment sums of data lying exactly on the line `y = m0 x + c0`. -/
lemma line_sums (m0 c0 : ℚ) (l : List WPt) (h : OnLine m0 c0 l) :
    sumWY l = m0 * sumWX l + c0 * sumW l ∧
      sumWXY l = m0 * sumWXX l + c0 * sumWX l ∧
      sumWYY l = m0 ^ 2 * sumWXX l + 2 * m0 * c0 * sumWX l + c0 ^ 2 * sumW l := by
  induction l with
  | nil => simp
  | cons p t ih =>
    have hp := h p (List.mem_cons_self p t)
    obtain ⟨i1, i2, i3⟩ := ih (fun q hq => h q (List.mem_cons_of_mem _ hq))
    refine ⟨?_, ?_, ?_⟩
    · rw [sumWY_cons, sumWX_cons, sumW_cons, i1, hp]; ring
    · rw [sumWXY_cons, sumWXX_cons, sumWX_cons, i2, hp]; ring
    · rw [sumWYY_cons, sumWXX_cons, sumWX_cons, sumW_cons, i3, hp]; ring

lemma line_mhat (m0 c0 : ℚ) (l : List WPt) (h : OnLine m0 c0 l)
    (hD : detXX l ≠ 0) : mhat l = m0 := by
  obtain ⟨i1, i2, _⟩ := line_sums m0 c0 l h
  rw [mhat, i1, i2]
  have hnum : sumW l * (m0 * sumWXX l + c0 * sumWX l) -
      sumWX l * (m0 * sumWX l + c0 * sumW l) = m0 * detXX l := by
    rw [detXX]; ring
  rw [hnum, mul_div_assoc, div_self hD, mul_one]

lemma line_chat (m0 c0 : ℚ) (l : List WPt) (h : OnLine m0 c0 l)
    (hD : detXX l ≠ 0) (hW : sumW l ≠ 0) : chat l = c0 := by
  obtain ⟨i1, _, _⟩ := line_sums m0 c0 l h
  rw [chat, line_mhat m0 c0 l h hD, i1]
  rw [show m0 * sumWX l + c0 * sumW l - m0 * sumWX l = c0 * sumW l by ring]
  exact mul_div_cancel_right₀ c0 hW

lemma line_detYY (m0 c0 : ℚ) (l : List WPt) (h : OnLine m0 c0 l) :
    detYY l = m0 ^ 2 * detXX l := by
  obtain ⟨i1, _, i3⟩ := line_sums m0 c0 l h
  rw [detYY, detXX, i1, i3]
  ring

/-- Elements of `xs.zip (xs.map f)` are pairs `(a, f a)`. -/
lemma mem_zip_map (f : ℚ → ℚ) (xs : List ℚ) (q : ℚ × ℚ)
    (hq : q ∈ xs.zip (xs.map f)) : q.2 = f q.1 := by
  induction xs with
  | nil => simp at hq
  | cons a t ih =>
    simp only [List.map_cons, List.zip_cons_cons, List.mem_cons] at hq
    rcases hq with rfl | hq
    · rfl
    · exact ih hq

/-- Elements of `xs.zip ((xs.map f).zip ss)` pair each `a` with `f a`. -/
lemma mem_zip3_map (f : ℚ → ℚ) (xs ss : List ℚ) (t : ℚ × ℚ × ℚ)
    (ht : t ∈ xs.zip ((xs.map f).zip ss)) : t.2.1 = f t.1 := by
  induction xs generalizing ss with
  | nil => simp at ht
  | cons a xt ih =>
    cases ss with
    | nil => simp at ht
    | cons s st =>
      simp only [List.map_cons, List.zip_cons_cons, List.mem_cons] at ht
      rcases ht with rfl | ht
      · rfl
      · exact ih st ht

lemma mkPts1_onLine (m0 c0 : ℚ) (xs : List ℚ) :
    OnLine m0 c0 (mkPts1 xs (xs.map (fun a => m0 * a + c0))) := by
  intro p hp
  obtain ⟨q, hq, rfl⟩ := List.mem_map.mp hp
  exact mem_zip_map _ xs q hq

lemma mkPtsW_onLine (m0 c0 : ℚ) (xs ss : List ℚ) :
    OnLine m0 c0 (mkPtsW xs (xs.map (fun a => m0 * a + c0)) ss) := by
  intro p hp
  obtain ⟨q, hq, rfl⟩ := List.mem_map.mp hp
  exact mem_zip3_map _ xs ss q hq

/-- A uniform uncertainty σ on every point makes the WLS point list a
constant reweighting of the OLS point list. -/
lemma mkPtsW_const (xs ys : List ℚ) (s : ℚ) :
    mkPtsW xs ys (List.replicate ys.length s) =
      (mkPts1 xs ys).map (scaleW (1 / s ^ 2)) := by
  induction xs generalizing ys with
  | nil => rfl
  | cons a xt ih =>
    cases ys with
    | nil => rfl
    | cons y yt =>
      simp only [mkPtsW, mkPts1, List.length_cons, List.replicate_succ,
        List.zip_cons_cons, List.map_cons] at ih ⊢
      refine congrArg₂ _ ?_ (ih yt)
      simp [scaleW]

lemma sum_map_scaleW (w0 : ℚ) (l : List WPt) (g h : WPt → ℚ)
    (hgh : ∀ p, g (scaleW w0 p) = w0 * h p) :
    ((l.map (scaleW w0)).map g).sum = w0 * (l.map h).sum := by
  induction l with
  | nil => simp
  | cons p t ih =>
    simp only [List.map_cons, List.sum_cons, hgh, ih]
    ring

lemma sumW_scale (w0 : ℚ) (l : List WPt) :
    sumW (l.map (scaleW w0)) = w0 * sumW l :=
  sum_map_scaleW w0 l _ _ (fun _ => rfl)

lemma sumWX_scale (w0 : ℚ) (l : List WPt) :
    sumWX (l.map (scaleW w0)) = w0 * sumWX l :=
  sum_map_scaleW w0 l _ _ (fun p => by simp [scaleW]; ring)

lemma sumWY_scale (w0 : ℚ) (l : List WPt) :
    sumWY (l.map (scaleW w0)) = w0 * sumWY l :=
  sum_map_scaleW w0 l _ _ (fun p => by simp [scaleW]; ring)

lemma sumWXX_scale (w0 : ℚ) (l : List WPt) :
    sumWXX (l.map (scaleW w0)) = w0 * sumWXX l :=
  sum_map_scaleW w0 l _ _ (fun p => by simp [scaleW]; ring)

lemma sumWXY_scale (w0 : ℚ) (l : List WPt) :
    sumWXY (l.map (scaleW w0)) = w0 * sumWXY l :=
  sum_map_scaleW w0 l _ _ (fun p => by simp [scaleW]; ring)

lemma detXX_scale (w0 : ℚ) (l : List WPt) :
    detXX (l.map (scaleW w0)) = w0 ^ 2 * detXX l := by
  rw [detXX, detXX, sumW_scale, sumWXX_scale, sumWX_scale]
  ring

/-- Rescaling every weight by the same nonzero constant leaves the fitted
slope unchanged. -/
lemma mhat_scale (w0 : ℚ) (hw0 : w0 ≠ 0) (l : List WPt) :
    mhat (l.map (scaleW w0)) = mhat l := by
  rw [mhat, mhat, detXX, detXX, sumW_scale, sumWX_scale, sumWXX_scale, sumWXY_scale,
    sumWY_scale]
  rw [show w0 * sumW l * (w0 * sumWXY l) - w0 * sumWX l * (w0 * sumWY l) =
      w0 ^ 2 * (sumW l * sumWXY l - sumWX l * sumWY l) by ring]
  rw [show w0 * sumW l * (w0 * sumWXX l) - (w0 * sumWX l) ^ 2 =
      w0 ^ 2 * (sumW l * sumWXX l - sumWX l ^ 2) by ring]
  exact mul_div_mul_left _ _ (pow_ne_zero 2 hw0)

/-- Rescaling every weight by the same nonzero constant leaves the fitted
intercept unchanged. -/
lemma chat_scale (w0 : ℚ) (hw0 : w0 ≠ 0) (l : List WPt) :
    chat (l.map (scaleW w0)) = chat l := by
  rw [chat, chat, mhat_scale w0 hw0, sumW_scale, sumWX_scale, sumWY_scale]
  rw [show w0 * sumWY l - mhat l * (w0 * sumWX l) =
      w0 * (sumWY l - mhat l * sumWX l) by ring]
  exact mul_div_mul_left _ _ hw0

/-- The orthogonal-distance objective is a sum of squares, hence
nonnegative. -/
lemma odrObj_nonneg (K : Type) [LinearOrderedField K] (l : List OPt)
    (m c : K) (ts : List K) : 0 ≤ odrObj K l m c ts := by
  refine List.sum_nonneg ?_
  intro u hu
  obtain ⟨q, _, rfl⟩ := List.mem_map.mp hu
  exact add_nonneg (sq_nonneg _) (sq_nonneg _)

lemma odrObj_cons (K : Type) [Field K] (q : OPt) (l : List OPt)
    (m c t0 : K) (ts : List K) :
    odrObj K (q :: l) m c (t0 :: ts) =
      (((q.x : K) - t0) / (q.sx : K)) ^ 2 +
        (((q.y : K) - (m * t0 + c)) / (q.sy : K)) ^ 2 + odrObj K l m c ts := by
  simp [odrObj]

/-- On data lying exactly on `y = m0 x + c0`, the orthogonal-distance
objective vanishes at the true parameters with the latent x equal to the
data x. -/
lemma odrObj_line_zero (K : Type) [Field K] [CharZero K]
    (xs : List ℚ) (m0 c0 sx sy : ℚ) :
    odrObj K (mkOPts xs (xs.map (fun a => m0 * a + c0)) sx sy)
      (m0 : K) (c0 : K) (xs.map (fun a => (a : K))) = 0 := by
  induction xs with
  | nil => rfl
  | cons a t ih =>
    have h1 : mkOPts (a :: t) ((a :: t).map (fun x => m0 * x + c0)) sx sy =
        (⟨a, m0 * a + c0, sx, sy⟩ : OPt) ::
          mkOPts t (t.map (fun x => m0 * x + c0)) sx sy := by
      simp [mkOPts]
    have h2 : (a :: t).map (fun x => (x : K)) = (a : K) :: t.map (fun x => (x : K)) :=
      rfl
    rw [h1, h2, odrObj_cons, ih, add_zero]
    push_cast
    simp

/-- A sum of nonnegative terms can only vanish if every term vanishes. -/
lemma sum_zero_terms (K : Type) [LinearOrderedField K] (L : List K)
    (h0 : ∀ x ∈ L, 0 ≤ x) (hs : L.sum = 0) : ∀ x ∈ L, x = 0 := by
  induction L with
  | nil => intro x hx; cases hx
  | cons a t ih =>
    have ha : 0 ≤ a := h0 a (List.mem_cons_self a t)
    have h0t : ∀ x ∈ t, 0 ≤ x := fun x hx => h0 x (List.mem_cons_of_mem _ hx)
    have hts : 0 ≤ t.sum := List.sum_nonneg h0t
    rw [List.sum_cons] at hs
    have ha0 : a = 0 := by linarith
    have hts0 : t.sum = 0 := by linarith
    intro x hx
    rcases List.mem_cons.mp hx with rfl | hx
    · exact ha0
    · exact ih h0t hts0 x hx

/-- Every element of a list is paired with some partner in a zip with a list
of the same length. -/
lemma exists_zip_partner {α β : Type} (l : List α) (ts : List β)
    (hlen : l.length = ts.length) (p : α) (hp : p ∈ l) :
    ∃ t, (p, t) ∈ l.zip ts := by
  induction l generalizing ts with
  | nil => cases hp
  | cons a at' ih =>
    cases ts with
    | nil => simp at hlen
    | cons b bt =>
      rcases List.mem_cons.mp hp with rfl | hp
      · exact ⟨b, List.mem_cons_self _ _⟩
      · obtain ⟨t, ht⟩ := ih bt (by simpa using hlen) hp
        exact ⟨t, List.mem_cons_of_mem _ ht⟩

lemma mkOPts_map_x (xs ys : List ℚ) (sx sy : ℚ) (h : xs.length ≤ ys.length) :
    (mkOPts xs ys sx sy).map (fun p => p.x) = xs := by
  unfold mkOPts
  rw [List.map_map]
  exact List.map_fst_zip xs ys h

lemma mkOPts_length (xs ys : List ℚ) (sx sy : ℚ) (h : xs.length ≤ ys.length) :
    (mkOPts xs ys sx sy).length = xs.length := by
  unfold mkOPts
  rw [List.length_map, List.length_zip]
  omega

lemma mkOPts_onLine (m0 c0 : ℚ) (xs : List ℚ) (sx sy : ℚ) :
    ∀ p ∈ mkOPts xs (xs.map (fun a => m0 * a + c0)) sx sy,
      p.y = m0 * p.x + c0 := by
  intro p hp
  obtain ⟨q, hq, rfl⟩ := List.mem_map.mp hp
  exact mem_zip_map _ xs q hq

lemma mkOPts_sx (xs ys : List ℚ) (sx sy : ℚ) :
    ∀ p ∈ mkOPts xs ys sx sy, p.sx = sx ∧ p.sy = sy := by
  intro p hp
  obtain ⟨q, _, rfl⟩ := List.mem_map.mp hp
  exact ⟨rfl, rfl⟩

/-- If the orthogonal-distance objective vanishes at some (m, c) and latent
values, every data point satisfies `y = m x + c` (with nonzero
uncertainties). -/
lemma odrObj_zero_onLine (K : Type) [LinearOrderedField K] (l : List OPt)
    (m c : K) (ts : List K) (hlen : l.length = ts.length)
    (hsx : ∀ p ∈ l, p.sx ≠ 0) (hsy : ∀ p ∈ l, p.sy ≠ 0)
    (hzero : odrObj K l m c ts = 0) :
    ∀ p ∈ l, (p.y : K) = m * (p.x : K) + c := by
  intro p hp
  have hterms := sum_zero_terms K _
    (by
      intro u hu
      obtain ⟨q, _, rfl⟩ := List.mem_map.mp hu
      exact add_nonneg (sq_nonneg _) (sq_nonneg _)) hzero
  obtain ⟨t, hpt⟩ := exists_zip_partner l ts hlen p hp
  have hterm := hterms _ (List.mem_map_of_mem _ hpt)
  have hq1 : (0 : K) ≤ (((p.x : K) - t) / (p.sx : K)) ^ 2 := sq_nonneg _
  have hq2 : (0 : K) ≤ (((p.y : K) - (m * t + c)) / (p.sy : K)) ^ 2 := sq_nonneg _
  have h1 : (((p.x : K) - t) / (p.sx : K)) ^ 2 = 0 := by linarith
  have h2 : (((p.y : K) - (m * t + c)) / (p.sy : K)) ^ 2 = 0 := by linarith
  have hsxK : ((p.sx : ℚ) : K) ≠ 0 := by
    exact_mod_cast hsx p hp
  have hsyK : ((p.sy : ℚ) : K) ≠ 0 := by
    exact_mod_cast hsy p hp
  have e1 : (p.x : K) - t = 0 := by
    have := pow_eq_zero_iff (n := 2) (by norm_num) |>.mp h1
    rcases div_eq_zero_iff.mp this with h | h
    · exact h
    · exact absurd h hsxK
  have e2 : (p.y : K) - (m * t + c) = 0 := by
    have := pow_eq_zero_iff (n := 2) (by norm_num) |>.mp h2
    rcases div_eq_zero_iff.mp this with h | h
    · exact h
    · exact absurd h hsyK
  have ht : t = (p.x : K) := by linarith [e1]
  rw [ht] at e2
  linarith [e2]

lemma constx_sums (x0 : ℚ) (l : List WPt) (h : ∀ p ∈ l, p.x = x0) :
    sumWX l = x0 * sumW l ∧ sumWXX l = x0 ^ 2 * sumW l := by
  induction l with
  | nil => simp
  | cons p t ih =>
    have hp := h p (List.mem_cons_self p t)
    obtain ⟨i1, i2⟩ := ih (fun q hq => h q (List.mem_cons_of_mem _ hq))
    constructor
    · rw [sumWX_cons, sumW_cons, i1, hp]; ring
    · rw [sumWXX_cons, sumW_cons, i2, hp]; ring

/-- A constant x column makes the normal-equation system singular. -/
lemma detXX_constx (x0 : ℚ) (l : List WPt) (h : ∀ p ∈ l, p.x = x0) :
    detXX l = 0 := by
  obtain ⟨i1, i2⟩ := constx_sums x0 l h
  rw [detXX, i1, i2]
  ring

/-- An `ok` outcome of the solver loop certifies a successful non-singular
step that met the convergence tolerance. -/
lemma iterateSolver_ok (step : ℚ × ℚ → Option (ℚ × ℚ)) (tol : ℚ) :
    ∀ (n : Nat) (p q : ℚ × ℚ), iterateSolver step tol n p = Except.ok q →
      ∃ r, step r = some q ∧ |q.1 - r.1| + |q.2 - r.2| ≤ tol := by
  intro n
  induction n with
  | zero =>
    intro p q hq
    simp [iterateSolver] at hq
  | succ k ih =>
    intro p q hq
    rw [iterateSolver] at hq
    cases hs : step p with
    | none => rw [hs] at hq; simp at hq
    | some q' =>
      rw [hs] at hq
      dsimp only at hq
      by_cases htol : |q'.1 - p.1| + |q'.2 - p.2| ≤ tol
      · rw [if_pos htol] at hq
        have : q' = q := by simpa using hq
        subst this
        exact ⟨p, hs, htol⟩
      · rw [if_neg htol] at hq
        exact ih q' q hq

/-- Claim C9: evaluating the straight-line model on a singleton sequence
yields exactly the singleton of the scalar evaluation, and evaluating any
sequence is element-wise scalar evaluation, so the two calling conventions
agree numerically. -/
theorem c9_model_vectorization (m c x0 : ℚ) (xs : List ℚ) (i : Nat) :
    StrtLineModelV [x0] m c = [StrtLineModel x0 m c] ∧
      (StrtLineModelV xs m c)[i]? = (xs[i]?).map (fun a => StrtLineModel a m c) := by
  constructor
  · rfl
  · simp [StrtLineModelV, StrtLineModel]

/-- Claim C8: for parameters with standard errors that are the square roots
of the covariance diagonal, the Confidence-Interval Builder returns exactly
the upper parameters (m + k·stderr_m, c + k·stderr_c) and the lower
parameters (m − k·stderr_m, c − k·stderr_c). -/
theorem c8_envelope_formula (m c sm sc vMM vCC k : ℚ)
    (_hm : 0 ≤ sm) (_hc : 0 ≤ sc) (_hvm : sm ^ 2 = vMM) (_hvc : sc ^ 2 = vCC) :
    confidenceEnvelope (m, c) (sm, sc) k =
      ((m + k * sm, c + k * sc), (m - k * sm, c - k * sc)) := rfl

/-- Witness for C8 at concrete values (covariance diagonal (9, 16),
standard errors (3, 4), multiplier 2). -/
theorem c8_envelope_formula_witness :
    (0 : ℚ) ≤ 3 ∧ (0 : ℚ) ≤ 4 ∧ (3 : ℚ) ^ 2 = 9 ∧ (4 : ℚ) ^ 2 = 16 ∧
      confidenceEnvelope (1, 2) (3, 4) 2 =
        ((1 + 2 * 3, 2 + 2 * 4), (1 - 2 * 3, 2 - 2 * 4)) :=
  ⟨by norm_num, by norm_num, by norm_num, by norm_num,
    c8_envelope_formula 1 2 3 4 9 16 2 (by norm_num) (by norm_num) (by norm_num)
      (by norm_num)⟩

/-- Claim C10: with stderr_m > 0 and k > 0 the upper and lower envelope
lines produced by the builder coincide at x = −stderr_c/stderr_m, and for
every x below that crossing the upper line evaluates strictly below the
lower line, so the two lines do not bound the fitted line at every x. -/
theorem c10_envelope_crossing (m c sm sc k x : ℚ) (hsm : 0 < sm) (hk : 0 < k) :
    (StrtLineModel ((-sc) / sm) ((confidenceEnvelope (m, c) (sm, sc) k).1.1)
        ((confidenceEnvelope (m, c) (sm, sc) k).1.2) =
      StrtLineModel ((-sc) / sm) ((confidenceEnvelope (m, c) (sm, sc) k).2.1)
        ((confidenceEnvelope (m, c) (sm, sc) k).2.2)) ∧
    (x < (-sc) / sm →
      StrtLineModel x ((confidenceEnvelope (m, c) (sm, sc) k).1.1)
          ((confidenceEnvelope (m, c) (sm, sc) k).1.2) <
        StrtLineModel x ((confidenceEnvelope (m, c) (sm, sc) k).2.1)
          ((confidenceEnvelope (m, c) (sm, sc) k).2.2)) := by
  constructor
  · simp only [confidenceEnvelope, StrtLineModel]
    field_simp
    ring
  · intro hx
    simp only [confidenceEnvelope, StrtLineModel]
    have h1 : x * sm < -sc := (lt_div_iff₀ hsm).mp hx
    nlinarith

/-- Witness for C10: at (m, c) = (0, 0), stderr = (1, 1), k = 1 and
x = −2 (below the crossing at −1) the upper line is strictly below the
lower line. -/
theorem c10_envelope_crossing_witness :
    StrtLineModel (-2) ((confidenceEnvelope (0, 0) (1, 1) 1).1.1)
        ((confidenceEnvelope (0, 0) (1, 1) 1).1.2) <
      StrtLineModel (-2) ((confidenceEnvelope (0, 0) (1, 1) 1).2.1)
        ((confidenceEnvelope (0, 0) (1, 1) 1).2.2) :=
  (c10_envelope_crossing 0 0 1 1 1 (-2) (by norm_num) (by norm_num)).2 (by norm_num)

/-- Claim C3: a zero entry in the y-uncertainty sequence makes the WLS
estimator fail with the distinct invalid-uncertainty error (no silent
infinite weight, no FitResult at all). -/
theorem c3_zero_uncertainty_error (xs ys ss : List ℚ) (b : Bool)
    (h : (0 : ℚ) ∈ ss) :
    curve_fit_wls xs ys ss b = Except.error FitError.invalidUncertainty := by
  have hno : ¬ ∀ s ∈ ss, 0 < s := by
    intro hall
    exact absurd (hall 0 h) (lt_irrefl 0)
  simp [curve_fit_wls, hno]

/-- Witness for C3 at a concrete dataset with a zero uncertainty entry. -/
theorem c3_zero_uncertainty_error_witness :
    (0 : ℚ) ∈ [(1 : ℚ), 0, 1] ∧
      curve_fit_wls [1, 2, 3] [1, 2, 3] [1, 0, 1] true =
        Except.error FitError.invalidUncertainty :=
  ⟨by simp, c3_zero_uncertainty_error [1, 2, 3] [1, 2, 3] [1, 0, 1] true (by simp)⟩

/-- Claim C5: if all x-values are identical the OLS estimator reports the
degenerate-input fit failure instead of returning any FitResult. -/
theorem c5_degenerate_x_error (xs ys : List ℚ) (x0 : ℚ)
    (h : ∀ a ∈ xs, a = x0) :
    linregress xs ys = Except.error FitError.degenerateInput := by
  have hx : ∀ p ∈ mkPts1 xs ys, p.x = x0 := by
    intro p hp
    obtain ⟨q, hq, rfl⟩ := List.mem_map.mp hp
    exact h q.1 (List.of_mem_zip hq).1
  have hdet : detXX (mkPts1 xs ys) = 0 := detXX_constx x0 _ hx
  simp [linregress, hdet]

/-- Witness for C5 on a concrete degenerate dataset (constant x column). -/
theorem c5_degenerate_x_error_witness :
    (∀ a ∈ [(1 : ℚ), 1], a = 1) ∧
      linregress [1, 1] [2, 3] = Except.error FitError.degenerateInput :=
  ⟨by decide, c5_degenerate_x_error [1, 1] [2, 3] 1 (by decide)⟩

/-- Claim C4: the iterative-solver control loop never returns an unflagged
result — with an exhausted iteration cap it reports the non-convergence
error, and any `ok` result certifies a non-singular step that met the
convergence tolerance (so a result that looks valid really converged). -/
theorem c4_solver_nonconvergence_flagged (step : ℚ × ℚ → Option (ℚ × ℚ))
    (tol : ℚ) (n : Nat) (p : ℚ × ℚ) :
    iterateSolver step tol 0 p = Except.error FitError.nonConvergence ∧
      ∀ q, iterateSolver step tol n p = Except.ok q →
        ∃ r, step r = some q ∧ |q.1 - r.1| + |q.2 - r.2| ≤ tol :=
  ⟨rfl, fun q hq => iterateSolver_ok step tol n p q hq⟩

/-- Witness for C4 with the identity step, which converges immediately:
the cap-exhausted call reports non-convergence and the `ok` run certifies
its converged step. -/
theorem c4_solver_nonconvergence_flagged_witness :
    iterateSolver (fun r => some r) 0 0 (1, 2) =
        Except.error FitError.nonConvergence ∧
      ∃ r, (fun r' : ℚ × ℚ => some r') r = some ((1 : ℚ), (2 : ℚ)) ∧
        |(1 : ℚ) - r.1| + |(2 : ℚ) - r.2| ≤ 0 := by
  obtain ⟨h1, h2⟩ := c4_solver_nonconvergence_flagged (fun r => some r) 0 1 (1, 2)
  refine ⟨h1, h2 (1, 2) ?_⟩
  simp [iterateSolver]

/-- Claim C1: on a DataSet with equally long x and y sequences of length at
least two whose x-values are not all identical, the OLS estimator succeeds
and returns the parameter pair minimizing `Σ (yᵢ − m xᵢ − c)²` over all real
(m, c), together with the Pearson correlation (stored as its square `r2`,
which satisfies `r2 · (Sxx · Syy) = Sxy²` whenever the correlation is
defined) and a slope standard error; the result carries no intercept
standard error field. -/
theorem c1_ols_minimizes (xs ys : List ℚ)
    (hlen : xs.length = ys.length) (_hN : 2 ≤ xs.length)
    (a b : ℚ) (ha : a ∈ xs) (hb : b ∈ xs) (hab : a ≠ b) :
    ∃ out, linregress xs ys = Except.ok out ∧
      (∀ m c : ℝ, Sols ℝ xs ys (out.m : ℝ) (out.c : ℝ) ≤ Sols ℝ xs ys m c) ∧
      (detYY (mkPts1 xs ys) ≠ 0 →
        out.r2 * (detXX (mkPts1 xs ys) * detYY (mkPts1 xs ys)) =
          detXY (mkPts1 xs ys) ^ 2) := by
  have hmap : (mkPts1 xs ys).map (fun p => p.x) = xs :=
    mkPts1_map_x xs ys hlen.le
  have hw := mkPts1_w_pos xs ys
  have hD : 0 < detXX (mkPts1 xs ys) :=
    detXX_pos_of_proj _ xs hmap hw a b ha hb hab
  have hW : 0 < sumW (mkPts1 xs ys) :=
    sumW_pos _ hw (ne_nil_of_proj _ xs hmap a ha)
  have hok : linregress xs ys = Except.ok
      ⟨mhat (mkPts1 xs ys), chat (mkPts1 xs ys),
        detXY (mkPts1 xs ys) ^ 2 / (detXX (mkPts1 xs ys) * detYY (mkPts1 xs ys)),
        (detYY (mkPts1 xs ys) / detXX (mkPts1 xs ys) - mhat (mkPts1 xs ys) ^ 2) /
          (sumW (mkPts1 xs ys) - 2)⟩ := by
    simp only [linregress, if_neg hD.ne']
  refine ⟨_, hok, ?_, ?_⟩
  · intro m c
    rw [Sols_eq_Sobj, Sols_eq_Sobj]
    exact Sobj_le ℝ (mkPts1 xs ys) hW hD m c
  · intro hYY
    exact div_mul_cancel₀ _ (mul_ne_zero hD.ne' hYY)

/-- Witness for C1 on the dataset x = (0, 1, 2), y = (1, 3, 5). -/
theorem c1_ols_minimizes_witness :
    ∃ out, linregress [0, 1, 2] [1, 3, 5] = Except.ok out ∧
      (∀ m c : ℝ, Sols ℝ [0, 1, 2] [1, 3, 5] (out.m : ℝ) (out.c : ℝ) ≤
        Sols ℝ [0, 1, 2] [1, 3, 5] m c) ∧
      (detYY (mkPts1 [0, 1, 2] [1, 3, 5]) ≠ 0 →
        out.r2 * (detXX (mkPts1 [0, 1, 2] [1, 3, 5]) *
          detYY (mkPts1 [0, 1, 2] [1, 3, 5])) =
            detXY (mkPts1 [0, 1, 2] [1, 3, 5]) ^ 2) :=
  c1_ols_minimizes [0, 1, 2] [1, 3, 5] (by decide) (by decide) 0 1 (by decide)
    (by decide) (by decide)

/-- Claim C2: with strictly positive y-uncertainties (and x-values not all
identical) the WLS estimator in absolute-uncertainty mode succeeds, its
parameters minimize `Σ ((yᵢ − m xᵢ − c)/σᵢ)²` over all real (m, c), its
covariance matrix is the inverse of the half-Hessian
`[[Σwx², Σwx], [Σwx, Σw]]` of that objective, and the covariance diagonal is
positive, so the derived standard errors (its element-wise square roots) are
well-defined. -/
theorem c2_wls_minimizes_cov (xs ys ss : List ℚ)
    (h1 : xs.length = ys.length) (h2 : ys.length = ss.length)
    (hs : ∀ s ∈ ss, 0 < s)
    (a b : ℚ) (ha : a ∈ xs) (hb : b ∈ xs) (hab : a ≠ b) :
    ∃ fr, curve_fit_wls xs ys ss true = Except.ok fr ∧
      (∀ m c : ℝ, SobjSigma ℝ xs ys ss (fr.m : ℝ) (fr.c : ℝ) ≤
        SobjSigma ℝ xs ys ss m c) ∧
      fr.covMM * sumWXX (mkPtsW xs ys ss) + fr.covMC * sumWX (mkPtsW xs ys ss) = 1 ∧
      fr.covMM * sumWX (mkPtsW xs ys ss) + fr.covMC * sumW (mkPtsW xs ys ss) = 0 ∧
      fr.covMC * sumWXX (mkPtsW xs ys ss) + fr.covCC * sumWX (mkPtsW xs ys ss) = 0 ∧
      fr.covMC * sumWX (mkPtsW xs ys ss) + fr.covCC * sumW (mkPtsW xs ys ss) = 1 ∧
      0 < fr.covMM ∧ 0 < fr.covCC := by
  have hmap : (mkPtsW xs ys ss).map (fun p => p.x) = xs := by
    refine mkPtsW_map_x xs ys ss ?_
    rw [List.length_zip]
    omega
  have hw := mkPtsW_w_pos xs ys ss hs
  have hD : 0 < detXX (mkPtsW xs ys ss) :=
    detXX_pos_of_proj _ xs hmap hw a b ha hb hab
  have hW : 0 < sumW (mkPtsW xs ys ss) :=
    sumW_pos _ hw (ne_nil_of_proj _ xs hmap a ha)
  have hXX : 0 < sumWXX (mkPtsW xs ys ss) := by
    have hD' : 0 < sumW (mkPtsW xs ys ss) * sumWXX (mkPtsW xs ys ss) -
        sumWX (mkPtsW xs ys ss) ^ 2 := by
      rw [← detXX]; exact hD
    nlinarith [sq_nonneg (sumWX (mkPtsW xs ys ss))]
  have hok : curve_fit_wls xs ys ss true = Except.ok
      ⟨mhat (mkPtsW xs ys ss), chat (mkPtsW xs ys ss),
        sumW (mkPtsW xs ys ss) / detXX (mkPtsW xs ys ss),
        -(sumWX (mkPtsW xs ys ss)) / detXX (mkPtsW xs ys ss),
        sumWXX (mkPtsW xs ys ss) / detXX (mkPtsW xs ys ss)⟩ := by
    simp only [curve_fit_wls, wlsScale]
    rw [if_pos hs, if_neg hD.ne']
    simp
  refine ⟨_, hok, ?_, ?_, ?_, ?_, ?_, ?_, ?_⟩
  · intro m c
    rw [SobjSigma_eq_Sobj, SobjSigma_eq_Sobj]
    exact Sobj_le ℝ (mkPtsW xs ys ss) hW hD m c
  · show sumW (mkPtsW xs ys ss) / detXX (mkPtsW xs ys ss) * sumWXX (mkPtsW xs ys ss) +
      -(sumWX (mkPtsW xs ys ss)) / detXX (mkPtsW xs ys ss) * sumWX (mkPtsW xs ys ss) = 1
    rw [div_mul_eq_mul_div, div_mul_eq_mul_div, div_add_div_same, div_eq_one_iff_eq hD.ne',
      detXX]
    ring
  · show sumW (mkPtsW xs ys ss) / detXX (mkPtsW xs ys ss) * sumWX (mkPtsW xs ys ss) +
      -(sumWX (mkPtsW xs ys ss)) / detXX (mkPtsW xs ys ss) * sumW (mkPtsW xs ys ss) = 0
    rw [div_mul_eq_mul_div, div_mul_eq_mul_div, div_add_div_same]
    rw [show sumW (mkPtsW xs ys ss) * sumWX (mkPtsW xs ys ss) +
        -(sumWX (mkPtsW xs ys ss)) * sumW (mkPtsW xs ys ss) = 0 by ring]
    exact zero_div _
  · show -(sumWX (mkPtsW xs ys ss)) / detXX (mkPtsW xs ys ss) * sumWXX (mkPtsW xs ys ss) +
      sumWXX (mkPtsW xs ys ss) / detXX (mkPtsW xs ys ss) * sumWX (mkPtsW xs ys ss) = 0
    rw [div_mul_eq_mul_div, div_mul_eq_mul_div, div_add_div_same]
    rw [show -(sumWX (mkPtsW xs ys ss)) * sumWXX (mkPtsW xs ys ss) +
        sumWXX (mkPtsW xs ys ss) * sumWX (mkPtsW xs ys ss) = 0 by ring]
    exact zero_div _
  · show -(sumWX (mkPtsW xs ys ss)) / detXX (mkPtsW xs ys ss) * sumWX (mkPtsW xs ys ss) +
      sumWXX (mkPtsW xs ys ss) / detXX (mkPtsW xs ys ss) * sumW (mkPtsW xs ys ss) = 1
    rw [div_mul_eq_mul_div, div_mul_eq_mul_div, div_add_div_same, div_eq_one_iff_eq hD.ne',
      detXX]
    ring
  · exact div_pos hW hD
  · exact div_pos hXX hD

/-- Witness for C2 on the dataset x = (0, 1, 2), y = (1, 2, 4),
σ = (1, 2, 1). -/
theorem c2_wls_minimizes_cov_witness :
    ∃ fr, curve_fit_wls [0, 1, 2] [1, 2, 4] [1, 2, 1] true = Except.ok fr ∧
      (∀ m c : ℝ, SobjSigma ℝ [0, 1, 2] [1, 2, 4] [1, 2, 1] (fr.m : ℝ) (fr.c : ℝ) ≤
        SobjSigma ℝ [0, 1, 2] [1, 2, 4] [1, 2, 1] m c) ∧
      fr.covMM * sumWXX (mkPtsW [0, 1, 2] [1, 2, 4] [1, 2, 1]) +
        fr.covMC * sumWX (mkPtsW [0, 1, 2] [1, 2, 4] [1, 2, 1]) = 1 ∧
      fr.covMM * sumWX (mkPtsW [0, 1, 2] [1, 2, 4] [1, 2, 1]) +
        fr.covMC * sumW (mkPtsW [0, 1, 2] [1, 2, 4] [1, 2, 1]) = 0 ∧
      fr.covMC * sumWXX (mkPtsW [0, 1, 2] [1, 2, 4] [1, 2, 1]) +
        fr.covCC * sumWX (mkPtsW [0, 1, 2] [1, 2, 4] [1, 2, 1]) = 0 ∧
      fr.covMC * sumWX (mkPtsW [0, 1, 2] [1, 2, 4] [1, 2, 1]) +
        fr.covCC * sumW (mkPtsW [0, 1, 2] [1, 2, 4] [1, 2, 1]) = 1 ∧
      0 < fr.covMM ∧ 0 < fr.covCC :=
  c2_wls_minimizes_cov [0, 1, 2] [1, 2, 4] [1, 2, 1] (by decide) (by decide)
    (by decide) 0 1 (by decide) (by decide) (by decide)

/-- Claim C6: for any DataSet (with x not all identical, so both estimators
succeed) and any positive constant σ, the OLS estimator and the WLS
estimator with every σyᵢ set to σ — in either covariance-scaling mode —
produce identical fitted parameters (m, c). -/
theorem c6_ols_wls_uniform_agree (xs ys : List ℚ) (s : ℚ) (bm : Bool)
    (hlen : xs.length = ys.length) (hs : 0 < s)
    (a b : ℚ) (ha : a ∈ xs) (hb : b ∈ xs) (hab : a ≠ b) :
    ∃ f1 f2, linregress xs ys = Except.ok f1 ∧
      curve_fit_wls xs ys (List.replicate ys.length s) bm = Except.ok f2 ∧
      f2.m = f1.m ∧ f2.c = f1.c := by
  have hmap1 : (mkPts1 xs ys).map (fun p => p.x) = xs :=
    mkPts1_map_x xs ys hlen.le
  have hw1 := mkPts1_w_pos xs ys
  have hD1 : 0 < detXX (mkPts1 xs ys) :=
    detXX_pos_of_proj _ xs hmap1 hw1 a b ha hb hab
  have hok1 : linregress xs ys = Except.ok
      ⟨mhat (mkPts1 xs ys), chat (mkPts1 xs ys),
        detXY (mkPts1 xs ys) ^ 2 / (detXX (mkPts1 xs ys) * detYY (mkPts1 xs ys)),
        (detYY (mkPts1 xs ys) / detXX (mkPts1 xs ys) - mhat (mkPts1 xs ys) ^ 2) /
          (sumW (mkPts1 xs ys) - 2)⟩ := by
    simp only [linregress, if_neg hD1.ne']
  have hconst : mkPtsW xs ys (List.replicate ys.length s) =
      (mkPts1 xs ys).map (scaleW (1 / s ^ 2)) := mkPtsW_const xs ys s
  have hw0 : (1 / s ^ 2 : ℚ) ≠ 0 := ne_of_gt (div_pos one_pos (pow_pos hs 2))
  have hD2 : 0 < detXX (mkPtsW xs ys (List.replicate ys.length s)) := by
    rw [hconst, detXX_scale]
    exact mul_pos (pow_pos (div_pos one_pos (pow_pos hs 2)) 2) hD1
  have hsig : ∀ t ∈ List.replicate ys.length s, 0 < t := by
    intro t ht
    rw [List.eq_of_mem_replicate ht]
    exact hs
  have hok2 : curve_fit_wls xs ys (List.replicate ys.length s) bm = Except.ok
      ⟨mhat (mkPtsW xs ys (List.replicate ys.length s)),
        chat (mkPtsW xs ys (List.replicate ys.length s)),
        wlsScale (mkPtsW xs ys (List.replicate ys.length s)) bm *
          (sumW (mkPtsW xs ys (List.replicate ys.length s)) /
            detXX (mkPtsW xs ys (List.replicate ys.length s))),
        wlsScale (mkPtsW xs ys (List.replicate ys.length s)) bm *
          (-(sumWX (mkPtsW xs ys (List.replicate ys.length s))) /
            detXX (mkPtsW xs ys (List.replicate ys.length s))),
        wlsScale (mkPtsW xs ys (List.replicate ys.length s)) bm *
          (sumWXX (mkPtsW xs ys (List.replicate ys.length s)) /
            detXX (mkPtsW xs ys (List.replicate ys.length s)))⟩ := by
    simp only [curve_fit_wls]
    rw [if_pos hsig, if_neg hD2.ne']
  refine ⟨_, _, hok1, hok2, ?_, ?_⟩
  · show mhat (mkPtsW xs ys (List.replicate ys.length s)) = mhat (mkPts1 xs ys)
    rw [hconst, mhat_scale _ hw0]
  · show chat (mkPtsW xs ys (List.replicate ys.length s)) = chat (mkPts1 xs ys)
    rw [hconst, chat_scale _ hw0]

/-- Witness for C6 on x = (0, 1, 2), y = (0, 1, 4), σ = 2, relative-weight
mode. -/
theorem c6_ols_wls_uniform_agree_witness :
    ∃ f1 f2, linregress [0, 1, 2] [0, 1, 4] = Except.ok f1 ∧
      curve_fit_wls [0, 1, 2] [0, 1, 4]
        (List.replicate ([0, 1, 4] : List ℚ).length 2) false = Except.ok f2 ∧
      f2.m = f1.m ∧ f2.c = f1.c :=
  c6_ols_wls_uniform_agree [0, 1, 2] [0, 1, 4] 2 false (by decide) (by norm_num)
    0 1 (by decide) (by decide) (by decide)

/-- Counterexample for claim C7 as stated: on the exact-line dataset
{(0,1),(1,3),(2,5)} (y = 2x + 1) with uniform absolute uncertainty σ = 1,
the WLS estimator does recover m = 2, c = 1, but its covariance diagonal
entry for the slope is 1/2 — the slope standard error is √(1/2) ≈ 0.707,
which is not ≈ 0: the absolute-σ covariance is the curvature of the χ²
objective and does not shrink on noiseless data. -/
theorem c7_wls_stderr_counterexample :
    curve_fit_wls [0, 1, 2] [1, 3, 5] [1, 1, 1] true =
      Except.ok ⟨2, 1, 1 / 2, -(1 / 2), 5 / 6⟩ ∧
      ¬ ((1 : ℚ) / 2 ≤ 1 / 100) := by
  constructor
  · norm_num [curve_fit_wls, wlsScale, mkPtsW, mhat, chat, detXX, sumW, sumWX,
      sumWXX, sumWXY, sumWY]
  · norm_num

/-- Claim C7 as amended: on a DataSet lying exactly on y = m0·x + c0 (with
two distinct x-values), OLS recovers (m0, c0) with slope standard error
exactly 0; WLS with uniform absolute σy also recovers (m0, c0) but both
diagonal entries of its covariance matrix are strictly positive (so neither
of its standard errors is ≈ 0 — they reflect the input σ, not the zero
residuals); and ODR recovers the true line in the sense that its objective
is nonnegative, vanishes at (m0, c0) with latent x equal to the data x, and
any parameters attaining objective 0 equal (m0, c0). -/
theorem c7_exact_line_amended (xs : List ℚ) (m0 c0 s sx sy : ℚ)
    (a b : ℚ) (ha : a ∈ xs) (hb : b ∈ xs) (hab : a ≠ b)
    (hs : 0 < s) (hsx : sx ≠ 0) (hsy : sy ≠ 0) :
    (∃ f1, linregress xs (xs.map (fun t => m0 * t + c0)) = Except.ok f1 ∧
      f1.m = m0 ∧ f1.c = c0 ∧ f1.stderrM2 = 0) ∧
    (∃ f2, curve_fit_wls xs (xs.map (fun t => m0 * t + c0))
        (List.replicate (xs.map (fun t => m0 * t + c0)).length s) true =
          Except.ok f2 ∧
      f2.m = m0 ∧ f2.c = c0 ∧ 0 < f2.covMM ∧ 0 < f2.covCC) ∧
    ((∀ (m c : ℝ) (ts : List ℝ),
        0 ≤ odrObj ℝ (mkOPts xs (xs.map (fun t => m0 * t + c0)) sx sy) m c ts) ∧
      odrObj ℝ (mkOPts xs (xs.map (fun t => m0 * t + c0)) sx sy) (m0 : ℝ) (c0 : ℝ)
        (xs.map (fun t => (t : ℝ))) = 0 ∧
      ∀ (m c : ℝ) (ts : List ℝ),
        ts.length = (mkOPts xs (xs.map (fun t => m0 * t + c0)) sx sy).length →
        odrObj ℝ (mkOPts xs (xs.map (fun t => m0 * t + c0)) sx sy) m c ts = 0 →
        m = (m0 : ℝ) ∧ c = (c0 : ℝ)) := by
  refine ⟨?_, ?_, ?_⟩
  · -- OLS part
    have hlen1 : xs.length = (xs.map (fun t => m0 * t + c0)).length := by
      rw [List.length_map]
    have hmap1 : (mkPts1 xs (xs.map (fun t => m0 * t + c0))).map (fun p => p.x) = xs :=
      mkPts1_map_x _ _ hlen1.le
    have hw1 := mkPts1_w_pos xs (xs.map (fun t => m0 * t + c0))
    have hD1 : 0 < detXX (mkPts1 xs (xs.map (fun t => m0 * t + c0))) :=
      detXX_pos_of_proj _ xs hmap1 hw1 a b ha hb hab
    have hW1 : 0 < sumW (mkPts1 xs (xs.map (fun t => m0 * t + c0))) :=
      sumW_pos _ hw1 (ne_nil_of_proj _ xs hmap1 a ha)
    have hline1 : OnLine m0 c0 (mkPts1 xs (xs.map (fun t => m0 * t + c0))) :=
      mkPts1_onLine m0 c0 xs
    have hok1 : linregress xs (xs.map (fun t => m0 * t + c0)) = Except.ok
        ⟨mhat (mkPts1 xs (xs.map (fun t => m0 * t + c0))),
          chat (mkPts1 xs (xs.map (fun t => m0 * t + c0))),
          detXY (mkPts1 xs (xs.map (fun t => m0 * t + c0))) ^ 2 /
            (detXX (mkPts1 xs (xs.map (fun t => m0 * t + c0))) *
              detYY (mkPts1 xs (xs.map (fun t => m0 * t + c0)))),
          (detYY (mkPts1 xs (xs.map (fun t => m0 * t + c0))) /
              detXX (mkPts1 xs (xs.map (fun t => m0 * t + c0))) -
            mhat (mkPts1 xs (xs.map (fun t => m0 * t + c0))) ^ 2) /
            (sumW (mkPts1 xs (xs.map (fun t => m0 * t + c0))) - 2)⟩ := by
      simp only [linregress, if_neg hD1.ne']
    have hm1 : mhat (mkPts1 xs (xs.map (fun t => m0 * t + c0))) = m0 :=
      line_mhat m0 c0 _ hline1 hD1.ne'
    have hc1 : chat (mkPts1 xs (xs.map (fun t => m0 * t + c0))) = c0 :=
      line_chat m0 c0 _ hline1 hD1.ne' hW1.ne'
    have hstd : (detYY (mkPts1 xs (xs.map (fun t => m0 * t + c0))) /
          detXX (mkPts1 xs (xs.map (fun t => m0 * t + c0))) -
        mhat (mkPts1 xs (xs.map (fun t => m0 * t + c0))) ^ 2) /
        (sumW (mkPts1 xs (xs.map (fun t => m0 * t + c0))) - 2) = 0 := by
      rw [line_detYY m0 c0 _ hline1, hm1, mul_div_assoc, div_self hD1.ne', mul_one,
        sub_self, zero_div]
    exact ⟨_, hok1, hm1, hc1, hstd⟩
  · -- WLS part
    have hsig : ∀ t ∈ List.replicate (xs.map (fun t => m0 * t + c0)).length s,
        0 < t := by
      intro t ht
      rw [List.eq_of_mem_replicate ht]
      exact hs
    have hmap2 : (mkPtsW xs (xs.map (fun t => m0 * t + c0))
        (List.replicate (xs.map (fun t => m0 * t + c0)).length s)).map
          (fun p => p.x) = xs := by
      refine mkPtsW_map_x _ _ _ ?_
      rw [List.length_zip, List.length_replicate, List.length_map]
      omega
    have hw2 := mkPtsW_w_pos xs (xs.map (fun t => m0 * t + c0))
      (List.replicate (xs.map (fun t => m0 * t + c0)).length s) hsig
    have hD2 : 0 < detXX (mkPtsW xs (xs.map (fun t => m0 * t + c0))
        (List.replicate (xs.map (fun t => m0 * t + c0)).length s)) :=
      detXX_pos_of_proj _ xs hmap2 hw2 a b ha hb hab
    have hW2 : 0 < sumW (mkPtsW xs (xs.map (fun t => m0 * t + c0))
        (List.replicate (xs.map (fun t => m0 * t + c0)).length s)) :=
      sumW_pos _ hw2 (ne_nil_of_proj _ xs hmap2 a ha)
    have hXX2 : 0 < sumWXX (mkPtsW xs (xs.map (fun t => m0 * t + c0))
        (List.replicate (xs.map (fun t => m0 * t + c0)).length s)) := by
      have hD' : 0 < sumW (mkPtsW xs (xs.map (fun t => m0 * t + c0))
            (List.replicate (xs.map (fun t => m0 * t + c0)).length s)) *
          sumWXX (mkPtsW xs (xs.map (fun t => m0 * t + c0))
            (List.replicate (xs.map (fun t => m0 * t + c0)).length s)) -
          sumWX (mkPtsW xs (xs.map (fun t => m0 * t + c0))
            (List.replicate (xs.map (fun t => m0 * t + c0)).length s)) ^ 2 := by
        rw [← detXX]; exact hD2
      nlinarith [sq_nonneg (sumWX (mkPtsW xs (xs.map (fun t => m0 * t + c0))
        (List.replicate (xs.map (fun t => m0 * t + c0)).length s)))]
    have hline2 : OnLine m0 c0 (mkPtsW xs (xs.map (fun t => m0 * t + c0))
        (List.replicate (xs.map (fun t => m0 * t + c0)).length s)) :=
      mkPtsW_onLine m0 c0 xs _
    have hok2 : curve_fit_wls xs (xs.map (fun t => m0 * t + c0))
        (List.replicate (xs.map (fun t => m0 * t + c0)).length s) true = Except.ok
        ⟨mhat (mkPtsW xs (xs.map (fun t => m0 * t + c0))
            (List.replicate (xs.map (fun t => m0 * t + c0)).length s)),
          chat (mkPtsW xs (xs.map (fun t => m0 * t + c0))
            (List.replicate (xs.map (fun t => m0 * t + c0)).length s)),
          sumW (mkPtsW xs (xs.map (fun t => m0 * t + c0))
              (List.replicate (xs.map (fun t => m0 * t + c0)).length s)) /
            detXX (mkPtsW xs (xs.map (fun t => m0 * t + c0))
              (List.replicate (xs.map (fun t => m0 * t + c0)).length s)),
          -(sumWX (mkPtsW xs (xs.map (fun t => m0 * t + c0))
              (List.replicate (xs.map (fun t => m0 * t + c0)).length s))) /
            detXX (mkPtsW xs (xs.map (fun t => m0 * t + c0))
              (List.replicate (xs.map (fun t => m0 * t + c0)).length s)),
          sumWXX (mkPtsW xs (xs.map (fun t => m0 * t + c0))
              (List.replicate (xs.map (fun t => m0 * t + c0)).length s)) /
            detXX (mkPtsW xs (xs.map (fun t => m0 * t + c0))
              (List.replicate (xs.map (fun t => m0 * t + c0)).length s))⟩ := by
      simp only [curve_fit_wls, wlsScale]
      rw [if_pos hsig, if_neg hD2.ne']
      simp
    exact ⟨_, hok2, line_mhat m0 c0 _ hline2 hD2.ne',
      line_chat m0 c0 _ hline2 hD2.ne' hW2.ne', div_pos hW2 hD2,
      div_pos hXX2 hD2⟩
  · -- ODR part
    refine ⟨fun m c ts => odrObj_nonneg ℝ _ m c ts,
      odrObj_line_zero ℝ xs m0 c0 sx sy, ?_⟩
    intro m c ts hlen hzero
    have hsxl : ∀ p ∈ mkOPts xs (xs.map (fun t => m0 * t + c0)) sx sy, p.sx ≠ 0 := by
      intro p hp
      rw [(mkOPts_sx _ _ _ _ p hp).1]
      exact hsx
    have hsyl : ∀ p ∈ mkOPts xs (xs.map (fun t => m0 * t + c0)) sx sy, p.sy ≠ 0 := by
      intro p hp
      rw [(mkOPts_sx _ _ _ _ p hp).2]
      exact hsy
    have honline := odrObj_zero_onLine ℝ _ m c ts hlen.symm hsxl hsyl hzero
    have hmap3 : (mkOPts xs (xs.map (fun t => m0 * t + c0)) sx sy).map
        (fun p => p.x) = xs := by
      refine mkOPts_map_x _ _ _ _ ?_
      rw [List.length_map]
    have ha2 : a ∈ (mkOPts xs (xs.map (fun t => m0 * t + c0)) sx sy).map
        (fun p => p.x) := by rw [hmap3]; exact ha
    have hb2 : b ∈ (mkOPts xs (xs.map (fun t => m0 * t + c0)) sx sy).map
        (fun p => p.x) := by rw [hmap3]; exact hb
    obtain ⟨pa, hpa, hpax⟩ := List.mem_map.mp ha2
    obtain ⟨pb, hpb, hpbx⟩ := List.mem_map.mp hb2
    have hya : pa.y = m0 * pa.x + c0 := mkOPts_onLine m0 c0 xs sx sy pa hpa
    have hyb : pb.y = m0 * pb.x + c0 := mkOPts_onLine m0 c0 xs sx sy pb hpb
    have ea : m * (a : ℝ) + c = (m0 : ℝ) * (a : ℝ) + (c0 : ℝ) := by
      have h := honline pa hpa
      rw [hya, hpax] at h
      push_cast at h
      linarith [h]
    have eb : m * (b : ℝ) + c = (m0 : ℝ) * (b : ℝ) + (c0 : ℝ) := by
      have h := honline pb hpb
      rw [hyb, hpbx] at h
      push_cast at h
      linarith [h]
    have habR : (a : ℝ) ≠ (b : ℝ) := by exact_mod_cast hab
    have h3 : (m - (m0 : ℝ)) * ((a : ℝ) - (b : ℝ)) = 0 := by
      linear_combination ea - eb
    have hm : m = (m0 : ℝ) := by
      rcases mul_eq_zero.mp h3 with h | h
      · linarith [h]
      · exact absurd (sub_eq_zero.mp h) habR
    refine ⟨hm, ?_⟩
    rw [hm] at ea
    linarith [ea]

/-- Witness for the amended C7: on x = (0, 1, 2) with the exact line
y = 2x + 1 and σ = 1, OLS recovers m = 2, c = 1 with zero slope standard
error. -/
theorem c7_exact_line_amended_witness :
    ∃ f1, linregress [0, 1, 2] ([0, 1, 2].map (fun t => 2 * t + 1)) =
        Except.ok f1 ∧ f1.m = 2 ∧ f1.c = 1 ∧ f1.stderrM2 = 0 :=
  (c7_exact_line_amended [0, 1, 2] 2 1 1 1 1 0 1 (by decide) (by decide)
    (by decide) (by norm_num) (by norm_num) (by norm_num)).1

end LineFit
